import Mathlib

/-!
Shallow embedding of the `number_range` Rust library (src/lib.rs) at the
integer instantiation `T = Int`, together with theorems checking the
natural-language specification against it.

Strings are modelled as `List Char`; machine integers are modelled as
unbounded `Int` (none of the verified properties involve overflow).
-/

/-- The `Number<T>` enum from the source: a single value or a
`Range(start, step, end)` descriptor. -/
inductive Number (T : Type) where
  | Single : T → Number T
  | Range : T → T → T → Number T
deriving DecidableEq, Repr

/-- Validity condition of a `Range(start, step, end)` triple, as in
`Number::is_valid`: `(start <= end && step > 0) || (start >= end && step < 0)`. -/
def rangeValid (s i e : Int) : Bool :=
  decide ((s ≤ e ∧ 0 < i) ∨ (e ≤ s ∧ i < 0))

/-- `Number::is_valid` from the source at `T = Int`. -/
def Number.is_valid : Number Int → Bool
  | .Single _ => true
  | .Range s i e => rangeValid s i e

/-- `Number::is_invalid` from the source. -/
def Number.is_invalid (n : Number Int) : Bool := !n.is_valid

/-- One pull of the `Iterator::next` implementation for `NumberRange<T>`,
acting on the `numbers` deque (front of the list = front of the deque).
Returns the emitted value (if any) and the new deque. -/
def nextL : List (Number Int) → Option Int × List (Number Int)
  | [] => (none, [])
  | .Single v :: rest => (some v, rest)
  | .Range s i e :: rest =>
    if (Number.Range s i e).is_valid then
      if (Number.Range (s + i) i e).is_valid then
        (some s, Number.Range (s + i) i e :: rest)
      else
        (some s, rest)
    else
      nextL rest

/-- Apply `nextL` a given number of times, collecting the emitted values
and returning the final deque. -/
def emitN : Nat → List (Number Int) → List Int × List (Number Int)
  | 0, st => ([], st)
  | n + 1, st =>
    match nextL st with
    | (some v, st1) =>
      let r := emitN n st1
      (v :: r.1, r.2)
    | (none, st1) => emitN n st1

/-- Apply `nextL` a given number of times, keeping only the final deque. -/
def stepN : Nat → List (Number Int) → List (Number Int)
  | 0, st => st
  | n + 1, st => stepN n (nextL st).2

/-- Fuel weight of one term: an upper bound on the number of pulls the
term can absorb. -/
def termWeight : Number Int → Nat
  | .Single _ => 1
  | .Range s _ e => (e - s).natAbs + 2

/-- Fuel weight of a whole deque. -/
def measureRS (l : List (Number Int)) : Nat := (l.map termWeight).sum

/-- Fuel-driven drain: pull until `nextL` yields nothing or fuel runs out. -/
def drainAux : Nat → List (Number Int) → List Int
  | 0, _ => []
  | f + 1, st =>
    match nextL st with
    | (some v, st1) => v :: drainAux f st1
    | (none, _) => []

/-- Full drain of a deque: the list of all values emitted by repeated
`next()` calls. -/
def drainAll (st : List (Number Int)) : List Int := drainAux (measureRS st) st

/-- Fuel-driven arithmetic-progression expansion of a range, mirroring
the step/validity structure of `next`. -/
def progAux : Nat → Int → Int → Int → List Int
  | 0, _, _, _ => []
  | f + 1, s, i, e =>
    if rangeValid s i e then
      if rangeValid (s + i) i e then s :: progAux f (s + i) i e else [s]
    else []

/-- The list of values a `Range(s, i, e)` term emits. -/
def progression (s i e : Int) : List Int := progAux ((e - s).natAbs + 1) s i e

/-- ASCII digit test, as used by Rust integer literal parsing. -/
def isDigitC (c : Char) : Bool := 48 ≤ c.toNat && c.toNat ≤ 57

/-- Whitespace characters trimmed and stripped by the library. -/
def isWS (c : Char) : Bool := c = ' ' || c = '\t' || c = '\n' || c = '\r'

/-- Accumulator fold over a digit string; fails on any non-digit. -/
def digitsValAux : Nat → List Char → Option Nat
  | acc, [] => some acc
  | acc, c :: cs => if isDigitC c then digitsValAux (acc * 10 + (c.toNat - 48)) cs else none

/-- Value of a nonempty all-digit string; `none` on the empty string or on
a non-digit character. -/
def digitsValCore : List Char → Option Nat
  | [] => none
  | c :: cs => digitsValAux 0 (c :: cs)

/-- Model of Rust `FromStr` for the integer target type (unbounded): an
optional single leading sign followed by one or more ASCII digits. -/
def parseIntLit : List Char → Option Int
  | [] => none
  | c :: cs =>
    if c = '-' then (digitsValCore cs).map (fun n => -(Int.ofNat n))
    else if c = '+' then (digitsValCore cs).map (fun n => Int.ofNat n)
    else (digitsValCore (c :: cs)).map (fun n => Int.ofNat n)

/-- Decimal digit character, for `n < 10`. -/
def digitChar (n : Nat) : Char := Char.ofNat (48 + n)

/-- Fuel-driven decimal rendering of a natural number, most significant
digit first. -/
def natCharsAux : Nat → Nat → List Char
  | 0, _ => []
  | f + 1, n => if n < 10 then [digitChar n] else natCharsAux f (n / 10) ++ [digitChar (n % 10)]

/-- Decimal rendering of a natural number (`n + 1` is always enough fuel). -/
def natChars (n : Nat) : List Char := natCharsAux (n + 1) n

/-- Decimal rendering of an integer, as Rust `Display` for an integer type. -/
def intChars : Int → List Char
  | .ofNat n => natChars n
  | .negSucc m => '-' :: natChars (m + 1)

/-- `NumberRangeOptions<T>` at `T = Int`. -/
structure NumberRangeOptions where
  group_sep : Char
  whitespace : Bool
  decimal_sep : Char
  list_sep : Char
  range_sep : Char
  default_start : Option Int
  default_end : Option Int
deriving DecidableEq, Repr

/-- `NumberRangeOptions::new()`: the default separator configuration. -/
def NumberRangeOptions.new : NumberRangeOptions :=
  { list_sep := ','
    range_sep := ':'
    decimal_sep := '.'
    group_sep := '_'
    whitespace := false
    default_start := none
    default_end := none }

/-- `NumberRangeOptions::with_group_sep`. -/
def NumberRangeOptions.with_group_sep (o : NumberRangeOptions) (sep : Char) :
    NumberRangeOptions := { o with group_sep := sep }

/-- `NumberRangeOptions::with_whitespace`. -/
def NumberRangeOptions.with_whitespace (o : NumberRangeOptions) (flag : Bool) :
    NumberRangeOptions := { o with whitespace := flag }

/-- `NumberRangeOptions::with_decimal_sep`. -/
def NumberRangeOptions.with_decimal_sep (o : NumberRangeOptions) (sep : Char) :
    NumberRangeOptions := { o with decimal_sep := sep }

/-- `NumberRangeOptions::with_list_sep`. -/
def NumberRangeOptions.with_list_sep (o : NumberRangeOptions) (sep : Char) :
    NumberRangeOptions := { o with list_sep := sep }

/-- `NumberRangeOptions::with_range_sep`. -/
def NumberRangeOptions.with_range_sep (o : NumberRangeOptions) (sep : Char) :
    NumberRangeOptions := { o with range_sep := sep }

/-- `NumberRangeOptions::with_default_start`. -/
def NumberRangeOptions.with_default_start (o : NumberRangeOptions) (d : Int) :
    NumberRangeOptions := { o with default_start := some d }

/-- `NumberRangeOptions::with_default_end`. -/
def NumberRangeOptions.with_default_end (o : NumberRangeOptions) (d : Int) :
    NumberRangeOptions := { o with default_end := some d }

/-- Rust `str::trim`: whitespace removed at both ends. -/
def trimChars (l : List Char) : List Char :=
  ((l.dropWhile isWS).reverse.dropWhile isWS).reverse

/-- Rust `str::split(char)`: the list of substrings between occurrences of
`sep` (an empty string splits to one empty piece). -/
def splitChar (sep : Char) : List Char → List (List Char)
  | [] => [[]]
  | c :: rest =>
    let r := splitChar sep rest
    if c = sep then [] :: r
    else
      match r with
      | [] => [[c]]
      | x :: xs => (c :: x) :: xs

/-- Rust `str::split_once(char)`: split at the first occurrence of `sep`. -/
def splitOnce (sep : Char) : List Char → Option (List Char × List Char)
  | [] => none
  | c :: rest =>
    if c = sep then some ([], rest)
    else
      match splitOnce sep rest with
      | some (a, b) => some (c :: a, b)
      | none => none

/-- Rust `str::splitn(n, char)`: at most `n` pieces, the last piece keeps
the remaining separators. -/
def splitNChar : Nat → Char → List Char → List (List Char)
  | 0, _, _ => []
  | 1, _, s => [s]
  | n + 2, sep, s =>
    match splitOnce sep s with
    | none => [s]
    | some (a, b) => a :: splitNChar (n + 1) sep b

/-- Parse errors of the library, mirroring the `anyhow` contexts attached
in the source: a malformed number carries the original unsanitized
substring, a too-many-separators error carries the separator and the
offending term substring. -/
inductive ParseErr where
  | notANumber : List Char → ParseErr
  | tooManySeps : Char → List Char → ParseErr
  | nothingToParse : ParseErr
  | splitPanic : ParseErr
deriving DecidableEq, Repr

/-- `NumberRange::sanitize_number`: trim, strip the group separator,
optionally strip all whitespace, then normalize the decimal separator. -/
def sanitize_number (o : NumberRangeOptions) (num : List Char) : List Char :=
  let t1 := trimChars num
  let t2 := t1.filter (fun c => !(c == o.group_sep))
  let t3 := if o.whitespace then t2.filter (fun c => !isWS c) else t2
  t3.map (fun c => if c == o.decimal_sep then '.' else c)

/-- `NumberRange::parse_number`: sanitize, substitute the default on an
empty sanitized substring, otherwise parse; the error carries the original
unsanitized substring. -/
def parse_number (o : NumberRangeOptions) (num : List Char) (d : Option Int) :
    Except ParseErr Int :=
  let s := sanitize_number o num
  if d.isSome ∧ s = [] then .ok (d.getD 0)
  else
    match parseIntLit s with
    | some v => .ok v
    | none => .error (.notANumber num)

/-- One term of `NumberRange::parse`: dispatch on the number of range
separator occurrences in the term substring. -/
def parseTerm (o : NumberRangeOptions) (seq : List Char) : Except ParseErr (Number Int) :=
  match seq.count o.range_sep with
  | 0 =>
    match parse_number o seq none with
    | .ok v => .ok (.Single v)
    | .error er => .error er
  | 1 =>
    match splitOnce o.range_sep seq with
    | some (a, b) =>
      match parse_number o a o.default_start with
      | .error er => .error er
      | .ok sv =>
        match parse_number o b o.default_end with
        | .error er => .error er
        | .ok ev => .ok (.Range sv 1 ev)
    | none => .error .splitPanic
  | 2 =>
    match splitNChar 3 o.range_sep seq with
    | [a, b, c] =>
      match parse_number o a o.default_start with
      | .error er => .error er
      | .ok sv =>
        match parse_number o b (some 1) with
        | .error er => .error er
        | .ok iv =>
          match parse_number o c o.default_end with
          | .error er => .error er
          | .ok ev => .ok (.Range sv iv ev)
    | _ => .error .splitPanic
  | _ + 3 => .error (.tooManySeps o.range_sep seq)

/-- The `collect::<Result<VecDeque<_>>>` over the term substrings: all
terms parse, or the first error is returned and no term list is produced. -/
def parseTerms (o : NumberRangeOptions) : List (List Char) → Except ParseErr (List (Number Int))
  | [] => .ok []
  | t :: ts =>
    match parseTerm o t with
    | .error er => .error er
    | .ok n =>
      match parseTerms o ts with
      | .error er => .error er
      | .ok ns => .ok (n :: ns)

/-- `NumberRange<'a, T>` at `T = Int`, the borrowed source string modelled
as a `List Char`. -/
structure NumberRange where
  numbers : List (Number Int)
  original_repr : Option (List Char)
  options : NumberRangeOptions
deriving DecidableEq, Repr

/-- `NumberRange::parse`. -/
def NumberRange.parse (nr : NumberRange) : Except ParseErr NumberRange :=
  match nr.original_repr with
  | some numstr =>
    if sanitize_number nr.options numstr = [] then .ok { nr with numbers := [] }
    else
      match parseTerms nr.options (splitChar nr.options.list_sep numstr) with
      | .ok ns => .ok { nr with numbers := ns }
      | .error er => .error er
  | none => .error .nothingToParse

/-- `NumberRange::parse_str`: record the source string, then parse. -/
def NumberRange.parse_str (nr : NumberRange) (numstr : List Char) :
    Except ParseErr NumberRange :=
  NumberRange.parse { nr with original_repr := some numstr }

/-- `NumberRange::original`. -/
def NumberRange.original (nr : NumberRange) : List Char := nr.original_repr.getD []

/-- `NumberRange::from_options`. -/
def NumberRange.from_options (o : NumberRangeOptions) : NumberRange :=
  { numbers := [], original_repr := none, options := o }

/-- `NumberRangeOptions::parse`. -/
def NumberRangeOptions.parse (o : NumberRangeOptions) (numstr : List Char) :
    Except ParseErr NumberRange :=
  (NumberRange.from_options o).parse_str numstr

/-- `NumberRange::default()`. -/
def NumberRange.defaultNR : NumberRange :=
  { numbers := [], original_repr := none, options := NumberRangeOptions.new }

/-- `Iterator::next` on the whole struct: only the `numbers` field changes. -/
def NumberRange.next (nr : NumberRange) : Option Int × NumberRange :=
  ((nextL nr.numbers).1, { nr with numbers := (nextL nr.numbers).2 })

/-- Iterated struct-level `next`. -/
def NumberRange.nextN : Nat → NumberRange → NumberRange
  | 0, nr => nr
  | n + 1, nr => NumberRange.nextN n (NumberRange.next nr).2

/-- `itertools::join` over a separator character. -/
def joinSep (sep : Char) : List (List Char) → List Char
  | [] => []
  | [x] => x
  | x :: y :: r => x ++ sep :: joinSep sep (y :: r)

/-- One term of the `Display` implementation: a `Single` prints its value,
a unit-step `Range` prints `start<range_sep>end`, any other `Range` prints
`start<range_sep>step<range_sep>end`. -/
def fmtTerm (o : NumberRangeOptions) : Number Int → List Char
  | .Single v => intChars v
  | .Range s i e =>
    if i = 1 then intChars s ++ o.range_sep :: intChars e
    else intChars s ++ o.range_sep :: (intChars i ++ o.range_sep :: intChars e)

/-- The `Display` implementation for `NumberRange`: terms joined with the
list separator. -/
def NumberRange.fmt (nr : NumberRange) : List Char :=
  joinSep nr.options.list_sep (nr.numbers.map (fmtTerm nr.options))

instance {ee aa : Type} [DecidableEq ee] [DecidableEq aa] : DecidableEq (Except ee aa)
  | .ok a, .ok b =>
    if h : a = b then .isTrue (by rw [h]) else .isFalse (by intro hh; injection hh; contradiction)
  | .ok _, .error _ => .isFalse (by intro hh; cases hh)
  | .error _, .ok _ => .isFalse (by intro hh; cases hh)
  | .error e1, .error e2 =>
    if h : e1 = e2 then .isTrue (by rw [h]) else .isFalse (by intro hh; injection hh; contradiction)

/-- The default configuration with both default bounds set, used for the
empty-list-item behavior. -/
def optsWithDefaults : NumberRangeOptions :=
  (NumberRangeOptions.new.with_default_start 1).with_default_end 9

/-- A degenerate configuration whose group separator equals the list
separator, so the whole input can sanitize to the empty string. -/
def c10Opts : NumberRangeOptions :=
  ((NumberRangeOptions.new.with_group_sep ',').with_default_start 1).with_default_end 9

theorem rangeValid_iff (s i e : Int) :
    rangeValid s i e = true ↔ ((s ≤ e ∧ 0 < i) ∨ (e ≤ s ∧ i < 0)) := by
  simp [rangeValid]

theorem is_valid_range (s i e : Int) :
    (Number.Range s i e).is_valid = rangeValid s i e := rfl

theorem valid_step_natAbs {s i e : Int} (h1 : rangeValid s i e = true)
    (h2 : rangeValid (s + i) i e = true) :
    (e - (s + i)).natAbs < (e - s).natAbs := by
  rw [rangeValid_iff] at h1 h2
  omega

theorem progAux_fuel {i e : Int} :
    ∀ (f1 f2 : Nat) (s : Int), (e - s).natAbs < f1 → (e - s).natAbs < f2 →
      progAux f1 s i e = progAux f2 s i e := by
  intro f1
  induction f1 with
  | zero => intro f2 s h1 _; omega
  | succ f ih =>
    intro f2 s h1 h2
    match f2 with
    | 0 => omega
    | g + 1 =>
      simp only [progAux]
      by_cases hv : rangeValid s i e = true
      · simp only [hv, if_true]
        by_cases hv2 : rangeValid (s + i) i e = true
        · simp only [hv2, if_true]
          have hd := valid_step_natAbs hv hv2
          rw [ih g (s + i) (by omega) (by omega)]
        · simp [hv2]
      · simp [hv]

theorem emitN_progAux {i e : Int} :
    ∀ (f : Nat) (s : Int) (rest : List (Number Int)),
      (e - s).natAbs < f → rangeValid s i e = true →
      emitN (progAux f s i e).length (Number.Range s i e :: rest) =
        (progAux f s i e, rest) := by
  intro f
  induction f with
  | zero => intro s rest h _; omega
  | succ f ih =>
    intro s rest h hv
    simp only [progAux, hv, if_true]
    by_cases hv2 : rangeValid (s + i) i e = true
    · simp only [hv2, if_true, List.length_cons]
      have hd := valid_step_natAbs hv hv2
      simp only [emitN, nextL, is_valid_range, hv, hv2, if_true]
      rw [ih (s + i) rest (by omega) hv2]
    · simp only [hv2, if_false, List.length_singleton]
      simp [emitN, nextL, is_valid_range, hv, hv2]

theorem map_prog_shift (s i : Int) (m : Nat) :
    (List.range (m + 1)).map (fun (k : Nat) => s + i * (k : Int)) =
      s :: (List.range m).map (fun (k : Nat) => (s + i) + i * (k : Int)) := by
  rw [List.range_succ_eq_map]
  simp only [List.map_cons, List.map_map, Nat.cast_zero, mul_zero, add_zero,
    List.cons.injEq, true_and]
  apply List.map_congr_left
  intro a _
  simp only [Function.comp_apply]
  push_cast
  ring

theorem progAux_spec {i e : Int} :
    ∀ (f : Nat) (s : Int), (e - s).natAbs < f → rangeValid s i e = true →
      ∃ n : Nat, progAux f s i e = (List.range (n + 1)).map (fun (k : Nat) => s + i * (k : Int))
        ∧ (0 < i → s + i * n ≤ e ∧ e < s + i * n + i)
        ∧ (i < 0 → e ≤ s + i * n ∧ s + i * n + i < e) := by
  intro f
  induction f with
  | zero => intro s h _; omega
  | succ f ih =>
    intro s h hv
    simp only [progAux, hv, if_true]
    by_cases hv2 : rangeValid (s + i) i e = true
    · simp only [hv2, if_true]
      have hd := valid_step_natAbs hv hv2
      obtain ⟨n, h1, h2, h3⟩ := ih (s + i) (by omega) hv2
      refine ⟨n + 1, ?_, ?_, ?_⟩
      · rw [map_prog_shift s i (n + 1), h1]
      · intro hi
        obtain ⟨ha, hb⟩ := h2 hi
        push_cast
        constructor <;> linarith
      · intro hi
        obtain ⟨ha, hb⟩ := h3 hi
        push_cast
        constructor <;> linarith
    · rw [if_neg hv2]
      rw [rangeValid_iff] at hv
      rw [rangeValid_iff] at hv2
      push_neg at hv2
      refine ⟨0, by simp [List.range_succ], ?_, ?_⟩
      · intro hi
        simp only [Nat.cast_zero, mul_zero, add_zero]
        omega
      · intro hi
        simp only [Nat.cast_zero, mul_zero, add_zero]
        omega

theorem nextL_nil : nextL [] = (none, []) := rfl

theorem measureRS_cons (t : Number Int) (ts : List (Number Int)) :
    measureRS (t :: ts) = termWeight t + measureRS ts := by
  simp [measureRS]

theorem termWeight_pos (t : Number Int) : 0 < termWeight t := by
  cases t <;> simp [termWeight]

theorem measureRS_pos {st : List (Number Int)} (h : st ≠ []) : 1 ≤ measureRS st := by
  cases st with
  | nil => exact absurd rfl h
  | cons t ts =>
    have := termWeight_pos t
    rw [measureRS_cons]
    omega

theorem nextL_measure_lt : ∀ st : List (Number Int), st ≠ [] →
    measureRS (nextL st).2 < measureRS st := by
  intro st
  induction st with
  | nil => intro h; exact absurd rfl h
  | cons t rest ih =>
    intro _
    cases t with
    | Single v =>
      simp [nextL, measureRS_cons, termWeight]
    | Range s i e =>
      by_cases hv : rangeValid s i e = true
      · by_cases hv2 : rangeValid (s + i) i e = true
        · have hd := valid_step_natAbs hv hv2
          simp only [nextL, is_valid_range, hv, hv2, if_true]
          rw [measureRS_cons, measureRS_cons]
          simp only [termWeight]
          omega
        · have hr : nextL (Number.Range s i e :: rest) = (some s, rest) := by
            simp only [nextL, is_valid_range]
            rw [if_pos hv, if_neg hv2]
          rw [hr, measureRS_cons]
          dsimp only
          have := termWeight_pos (Number.Range s i e)
          omega
      · have hr : nextL (Number.Range s i e :: rest) = nextL rest := by
          simp only [nextL, is_valid_range]
          rw [if_neg hv]
        rw [hr, measureRS_cons]
        have hw := termWeight_pos (Number.Range s i e)
        rcases Decidable.em (rest = []) with hre | hre
        · subst hre
          simp only [nextL_nil, measureRS, List.map_nil, List.sum_nil]
          omega
        · have := ih hre
          omega

theorem stepN_nil (n : Nat) : stepN n [] = [] := by
  induction n with
  | zero => rfl
  | succ n ih => simpa [stepN, nextL_nil] using ih

theorem stepN_add (m n : Nat) : ∀ st, stepN (m + n) st = stepN n (stepN m st) := by
  induction m with
  | zero => intro st; simp [stepN]
  | succ m ih =>
    intro st
    have he : m + 1 + n = (m + n) + 1 := by omega
    rw [he]
    show stepN (m + n) (nextL st).2 = stepN n (stepN (m + 1) st)
    rw [ih]
    rfl

theorem measureRS_eq_zero {st : List (Number Int)} (h : measureRS st = 0) : st = [] := by
  cases st with
  | nil => rfl
  | cons t ts =>
    exfalso
    have := termWeight_pos t
    rw [measureRS_cons] at h
    omega

theorem stepN_measure_drained : ∀ (n : Nat) (st : List (Number Int)),
    measureRS st ≤ n → stepN (measureRS st) st = [] := by
  intro n
  induction n with
  | zero =>
    intro st h
    have h0 : measureRS st = 0 := by omega
    rw [h0, measureRS_eq_zero h0]
    rfl
  | succ n ih =>
    intro st h
    rcases Decidable.em (st = []) with he | he
    · subst he; exact stepN_nil _
    · have hlt := nextL_measure_lt st he
      have hM := measureRS_pos he
      have h1 : stepN (measureRS st) st = stepN (measureRS st - 1) (nextL st).2 := by
        have hs : measureRS st = (measureRS st - 1) + 1 := by omega
        rw [hs]
        rfl
      rw [h1]
      have h2 : stepN (measureRS (nextL st).2) (nextL st).2 = [] :=
        ih (nextL st).2 (by omega)
      have h3 : measureRS st - 1 =
          measureRS (nextL st).2 + (measureRS st - 1 - measureRS (nextL st).2) := by omega
      rw [h3, stepN_add, h2, stepN_nil]

/-- C1: for every valid `Range(s, i, e)` term at the front of the deque,
repeated `next()` calls emit exactly the arithmetic progression
`s, s + i, s + 2i, ...`, in order, each value exactly once, ending with the
last value at or before `e` (at or after `e` for negative `i`), after which
the term is removed and the rest of the deque is untouched. -/
theorem c1_valid_range_progression (s i e : Int) (rest : List (Number Int))
    (h : rangeValid s i e = true) :
    emitN (progression s i e).length (Number.Range s i e :: rest) = (progression s i e, rest)
    ∧ (∃ n : Nat,
        progression s i e = (List.range (n + 1)).map (fun (k : Nat) => s + i * (k : Int))
          ∧ (0 < i → s + i * n ≤ e ∧ e < s + i * n + i)
          ∧ (i < 0 → e ≤ s + i * n ∧ s + i * n + i < e))
    ∧ (progression s i e).Nodup := by
  have hfuel : (e - s).natAbs < (e - s).natAbs + 1 := Nat.lt_succ_self _
  refine ⟨emitN_progAux _ s rest hfuel h, progAux_spec _ s hfuel h, ?_⟩
  obtain ⟨n, h1, _, _⟩ := progAux_spec ((e - s).natAbs + 1) s hfuel h
  rw [progression, h1]
  refine List.Nodup.map ?_ (List.nodup_range _)
  intro a b hab
  have hi0 : i ≠ 0 := by
    rw [rangeValid_iff] at h
    omega
  have hc : (a : Int) = (b : Int) := mul_left_cancel₀ hi0 (add_left_cancel hab)
  exact_mod_cast hc

theorem c1_witness :
    progression 1 4 10 = [1, 5, 9]
    ∧ emitN (progression 1 4 10).length [Number.Range 1 4 10] =
        (progression 1 4 10, ([] : List (Number Int))) :=
  ⟨by decide, (c1_valid_range_progression 1 4 10 [] (by decide)).1⟩

/-- C2: a `Single` is always valid; a `Range(start, step, end)` is valid iff
`(start <= end and step > 0) or (start >= end and step < 0)`; a `Range` with
`start == end` is valid for either nonzero step sign; a zero-step `Range` is
never valid. -/
theorem c2_validity :
    (∀ v : Int, (Number.Single v).is_valid = true)
    ∧ (∀ s i e : Int,
        (Number.Range s i e).is_valid = true ↔ ((s ≤ e ∧ 0 < i) ∨ (e ≤ s ∧ i < 0)))
    ∧ (∀ s i : Int, i ≠ 0 → (Number.Range s i s).is_valid = true)
    ∧ (∀ s e : Int, (Number.Range s 0 e).is_valid = false) := by
  refine ⟨fun v => rfl, fun s i e => by rw [is_valid_range, rangeValid_iff], ?_, ?_⟩
  · intro s i hi
    rw [is_valid_range, rangeValid_iff]
    omega
  · intro s e
    rw [is_valid_range]
    simp only [rangeValid, decide_eq_false_iff_not]
    omega

theorem c2_witness :
    (Number.Range 3 5 3).is_valid = true ∧ (Number.Range 7 (-2) 7).is_valid = true :=
  ⟨c2_validity.2.2.1 3 5 (by decide), c2_validity.2.2.1 7 (-2) (by decide)⟩

/-- C5: when the front term is an invalid `Range`, `next()` removes it
without emitting any value and behaves exactly as `next()` on the remaining
terms; on an empty deque it signals end of sequence. Invalidity is never
surfaced as an error (the return type carries no error case). -/
theorem c5_invalid_range_skipped (s i e : Int) (rest : List (Number Int))
    (h : (Number.Range s i e).is_valid = false) :
    nextL (Number.Range s i e :: rest) = nextL rest
    ∧ nextL ([] : List (Number Int)) = (none, []) := by
  refine ⟨?_, rfl⟩
  simp only [nextL, is_valid_range]
  rw [if_neg]
  rw [is_valid_range] at h
  simp [h]

theorem c5_witness :
    nextL [Number.Range 3 0 5, Number.Single 7] = (some 7, ([] : List (Number Int))) := by
  rw [(c5_invalid_range_skipped 3 0 5 [Number.Single 7] (by decide)).1]
  rfl

/-- C8: iteration terminates: after finitely many pulls (at most the fuel
weight of the deque) the deque is empty, every later pull also leaves it
empty, and a pull on the empty deque signals end of sequence while leaving
the deque unchanged. -/
theorem c8_termination (st : List (Number Int)) :
    stepN (measureRS st) st = []
    ∧ (∀ m : Nat, measureRS st ≤ m → stepN m st = [])
    ∧ nextL [] = (none, []) := by
  have h1 := stepN_measure_drained (measureRS st) st (le_refl _)
  refine ⟨h1, ?_, rfl⟩
  intro m hm
  have he : m = measureRS st + (m - measureRS st) := by omega
  rw [he, stepN_add, h1, stepN_nil]

theorem c8_witness :
    stepN (measureRS [Number.Single 3]) [Number.Single 3] = ([] : List (Number Int))
    ∧ stepN 5 [Number.Single 3] = ([] : List (Number Int)) :=
  ⟨(c8_termination [Number.Single 3]).1, (c8_termination [Number.Single 3]).2.1 5 (by decide)⟩

theorem digitsValAux_append (l1 l2 : List Char) : ∀ acc : Nat,
    digitsValAux acc (l1 ++ l2) =
      match digitsValAux acc l1 with
      | some a => digitsValAux a l2
      | none => none := by
  induction l1 with
  | nil => intro acc; rfl
  | cons c cs ih =>
    intro acc
    simp only [List.cons_append, List.append_eq, digitsValAux]
    by_cases hd : isDigitC c = true
    · rw [if_pos hd, if_pos hd, ih]
    · rw [if_neg hd, if_neg hd]

theorem digitChar_digit {n : Nat} (h : n < 10) : isDigitC (digitChar n) = true := by
  interval_cases n <;> decide

theorem digitChar_toNat {n : Nat} (h : n < 10) : (digitChar n).toNat = 48 + n := by
  interval_cases n <;> decide

theorem natCharsAux_spec : ∀ (f n : Nat), n < f →
    natCharsAux f n ≠ []
    ∧ (∀ c ∈ natCharsAux f n, isDigitC c = true)
    ∧ ∀ acc : Nat, digitsValAux acc (natCharsAux f n) =
        some (acc * 10 ^ (natCharsAux f n).length + n) := by
  intro f
  induction f with
  | zero => intro n h; omega
  | succ f ih =>
    intro n h
    by_cases h10 : n < 10
    · have hd := digitChar_digit h10
      have ht := digitChar_toNat h10
      simp only [natCharsAux, if_pos h10]
      refine ⟨by simp, by simp [hd], ?_⟩
      intro acc
      simp only [digitsValAux, hd, if_true, ht, List.length_singleton, pow_one]
      congr 1
      omega
    · have hn : n / 10 < f := by omega
      obtain ⟨ih1, ih2, ih3⟩ := ih (n / 10) hn
      have hm : n % 10 < 10 := Nat.mod_lt _ (by omega)
      have hd := digitChar_digit hm
      have ht := digitChar_toNat hm
      simp only [natCharsAux, if_neg h10]
      refine ⟨by simp, ?_, ?_⟩
      · intro c hc
        rcases List.mem_append.mp hc with hc1 | hc1
        · exact ih2 c hc1
        · rw [List.mem_singleton.mp hc1]; exact hd
      · intro acc
        rw [digitsValAux_append, ih3 acc]
        simp only [digitsValAux, hd, if_true, ht, List.length_append,
          List.length_singleton]
        congr 1
        have h48 : 48 + n % 10 - 48 = n % 10 := by omega
        rw [h48]
        have hmod : n / 10 * 10 + n % 10 = n := by omega
        calc (acc * 10 ^ (natCharsAux f (n / 10)).length + n / 10) * 10 + n % 10
            = acc * (10 ^ (natCharsAux f (n / 10)).length * 10)
                + (n / 10 * 10 + n % 10) := by ring
          _ = acc * 10 ^ ((natCharsAux f (n / 10)).length + 1) + n := by
              rw [hmod, pow_succ]

theorem natChars_spec (n : Nat) :
    natChars n ≠ []
    ∧ (∀ c ∈ natChars n, isDigitC c = true)
    ∧ digitsValCore (natChars n) = some n := by
  obtain ⟨h1, h2, h3⟩ := natCharsAux_spec (n + 1) n (Nat.lt_succ_self n)
  refine ⟨h1, h2, ?_⟩
  show digitsValCore (natCharsAux (n + 1) n) = some n
  cases hc : natCharsAux (n + 1) n with
  | nil => exact absurd hc h1
  | cons c cs =>
    show digitsValAux 0 (c :: cs) = some n
    have hv := h3 0
    rw [hc] at hv
    simpa using hv

theorem digit_not_special {c : Char} (h : isDigitC c = true) :
    isWS c = false ∧ c ≠ '_' ∧ c ≠ '.' ∧ c ≠ ':' ∧ c ≠ ',' ∧ c ≠ '-' ∧ c ≠ '+' := by
  refine ⟨?_, ?_, ?_, ?_, ?_, ?_, ?_⟩
  · by_contra hw
    rw [Bool.not_eq_false] at hw
    simp only [isWS, Bool.or_eq_true, decide_eq_true_eq] at hw
    rcases hw with ((rfl | rfl) | rfl) | rfl <;> exact absurd h (by decide)
  all_goals intro heq; subst heq; exact absurd h (by decide)

theorem parseIntLit_intChars (v : Int) : parseIntLit (intChars v) = some v := by
  cases v with
  | ofNat n =>
    obtain ⟨h1, h2, h3⟩ := natChars_spec n
    show parseIntLit (natChars n) = some (Int.ofNat n)
    cases hc : natChars n with
    | nil => exact absurd hc h1
    | cons c cs =>
      have hdc : isDigitC c = true := h2 c (by rw [hc]; exact List.mem_cons_self c cs)
      obtain ⟨-, -, -, -, -, hminus, hplus⟩ := digit_not_special hdc
      rw [hc] at h3
      simp only [parseIntLit]
      rw [if_neg hminus, if_neg hplus, h3]
      rfl
  | negSucc m =>
    obtain ⟨h1, h2, h3⟩ := natChars_spec (m + 1)
    show parseIntLit ('-' :: natChars (m + 1)) = some (Int.negSucc m)
    simp only [parseIntLit]
    rw [if_pos trivial, h3]
    show some (-(Int.ofNat (m + 1))) = some (Int.negSucc m)
    refine congrArg some ?_
    rw [Int.negSucc_eq, show Int.ofNat (m + 1) = ((m + 1 : Nat) : Int) from rfl]
    push_cast
    ring

theorem intChars_ne_nil (v : Int) : intChars v ≠ [] := by
  cases v with
  | ofNat n => exact (natChars_spec n).1
  | negSucc m => simp [intChars]

theorem intChars_chars (v : Int) : ∀ c ∈ intChars v, isDigitC c = true ∨ c = '-' := by
  cases v with
  | ofNat n => exact fun c hc => Or.inl ((natChars_spec n).2.1 c hc)
  | negSucc m =>
    intro c hc
    rcases List.mem_cons.mp hc with h1 | h1
    · exact Or.inr h1
    · exact Or.inl ((natChars_spec (m + 1)).2.1 c h1)

theorem dropWhile_all_false {p : Char → Bool} :
    ∀ l : List Char, (∀ c ∈ l, p c = false) → l.dropWhile p = l := by
  intro l h
  cases l with
  | nil => rfl
  | cons c cs =>
    rw [List.dropWhile_cons, if_neg]
    simp [h c (List.mem_cons_self c cs)]

theorem trimChars_id {l : List Char} (h : ∀ c ∈ l, isWS c = false) : trimChars l = l := by
  rw [trimChars, dropWhile_all_false l h,
    dropWhile_all_false l.reverse (fun c hc => h c (List.mem_reverse.mp hc))]
  exact List.reverse_reverse l

theorem map_id_of_fixed {f : Char → Char} :
    ∀ l : List Char, (∀ c ∈ l, f c = c) → l.map f = l := by
  intro l h
  induction l with
  | nil => rfl
  | cons c cs ih =>
    simp only [List.map_cons]
    rw [h c (List.mem_cons_self c cs), ih (fun x hx => h x (List.mem_cons_of_mem c hx))]

theorem sanitize_number_id {o : NumberRangeOptions} {l : List Char}
    (h : ∀ c ∈ l, isWS c = false ∧ c ≠ o.group_sep ∧ c ≠ o.decimal_sep) :
    sanitize_number o l = l := by
  have h1 : trimChars l = l := trimChars_id (fun c hc => (h c hc).1)
  have h2 : l.filter (fun c => !(c == o.group_sep)) = l := by
    rw [List.filter_eq_self]
    intro c hc
    simp [(h c hc).2.1]
  have h3 : l.filter (fun c => !isWS c) = l := by
    rw [List.filter_eq_self]
    intro c hc
    simp [(h c hc).1]
  have h4 : l.map (fun c => if c == o.decimal_sep then '.' else c) = l :=
    map_id_of_fixed l (fun c hc => by
      rw [if_neg]
      simpa [beq_iff_eq] using (h c hc).2.2)
  simp only [sanitize_number]
  rw [h1, h2]
  cases hw : o.whitespace
  · rw [if_neg (by simp)]
    exact h4
  · rw [if_pos rfl, h3]
    exact h4

theorem splitOnce_not_mem {sep : Char} :
    ∀ l : List Char, sep ∉ l → splitOnce sep l = none := by
  intro l
  induction l with
  | nil => intro _; rfl
  | cons c cs ih =>
    intro h
    have hc : c ≠ sep := fun he => h (he ▸ List.mem_cons_self c cs)
    simp only [splitOnce]
    rw [if_neg hc, ih (fun hm => h (List.mem_cons_of_mem c hm))]

theorem splitOnce_append {sep : Char} :
    ∀ (l1 l2 : List Char), sep ∉ l1 →
      splitOnce sep (l1 ++ sep :: l2) = some (l1, l2) := by
  intro l1
  induction l1 with
  | nil =>
    intro l2 _
    simp [splitOnce]
  | cons c cs ih =>
    intro l2 h
    have hc : c ≠ sep := fun he => h (he ▸ List.mem_cons_self c cs)
    simp only [List.cons_append, List.append_eq, splitOnce]
    rw [if_neg hc, ih l2 (fun hm => h (List.mem_cons_of_mem c hm))]

theorem splitChar_not_mem {sep : Char} :
    ∀ l : List Char, sep ∉ l → splitChar sep l = [l] := by
  intro l
  induction l with
  | nil => intro _; rfl
  | cons c cs ih =>
    intro h
    have hc : c ≠ sep := fun he => h (he ▸ List.mem_cons_self c cs)
    simp only [splitChar]
    rw [if_neg hc, ih (fun hm => h (List.mem_cons_of_mem c hm))]

theorem splitChar_append {sep : Char} :
    ∀ (x r : List Char), sep ∉ x →
      splitChar sep (x ++ sep :: r) = x :: splitChar sep r := by
  intro x
  induction x with
  | nil =>
    intro r _
    simp [splitChar]
  | cons c cs ih =>
    intro r h
    have hc : c ≠ sep := fun he => h (he ▸ List.mem_cons_self c cs)
    simp only [List.cons_append, List.append_eq, splitChar]
    rw [if_neg hc, ih r (fun hm => h (List.mem_cons_of_mem c hm))]

theorem joinSep_cons2 (sep : Char) (x y : List Char) (r : List (List Char)) :
    joinSep sep (x :: y :: r) = x ++ sep :: joinSep sep (y :: r) := rfl

theorem splitChar_joinSep {sep : Char} :
    ∀ pieces : List (List Char), pieces ≠ [] → (∀ p ∈ pieces, sep ∉ p) →
      splitChar sep (joinSep sep pieces) = pieces := by
  intro pieces
  induction pieces with
  | nil => intro h _; exact absurd rfl h
  | cons x rest ih =>
    intro _ h
    cases rest with
    | nil => exact splitChar_not_mem x (h x (List.mem_cons_self x []))
    | cons y r =>
      rw [joinSep_cons2, splitChar_append x _ (h x (List.mem_cons_self _ _)),
        ih (by simp) (fun p hp => h p (List.mem_cons_of_mem x hp))]

theorem splitN3_eq {sep : Char} (a b c : List Char) (ha : sep ∉ a) (hb : sep ∉ b) :
    splitNChar 3 sep (a ++ sep :: (b ++ sep :: c)) = [a, b, c] := by
  simp only [splitNChar]
  rw [splitOnce_append a _ ha]
  simp only [splitNChar]
  rw [splitOnce_append b c hb]

theorem count_sep_free {sep : Char} {l : List Char} (h : sep ∉ l) : l.count sep = 0 :=
  List.count_eq_zero.mpr h

theorem count_append_sep2 {sep : Char} {a b c : List Char}
    (ha : sep ∉ a) (hb : sep ∉ b) (hc : sep ∉ c) :
    (a ++ sep :: (b ++ sep :: c)).count sep = 2 := by
  rw [List.count_append, List.count_cons_self, List.count_append, List.count_cons_self,
    count_sep_free ha, count_sep_free hb, count_sep_free hc]

theorem count_append_sep1 {sep : Char} {a b : List Char} (ha : sep ∉ a) (hb : sep ∉ b) :
    (a ++ sep :: b).count sep = 1 := by
  rw [List.count_append, List.count_cons_self, count_sep_free ha, count_sep_free hb]

theorem intChars_not_mem {v : Int} {x : Char} (h1 : isDigitC x = false) (h2 : x ≠ '-') :
    x ∉ intChars v := by
  intro hm
  rcases intChars_chars v x hm with hd | hd
  · rw [h1] at hd
    cases hd
  · exact h2 hd

theorem intChars_ws_free (v : Int) : ∀ c ∈ intChars v, isWS c = false := by
  intro c hc
  rcases intChars_chars v c hc with hd | hd
  · exact (digit_not_special hd).1
  · rw [hd]
    decide

theorem sanitize_intChars {o : NumberRangeOptions} {v : Int}
    (hgd : ∀ c ∈ intChars v, c ≠ o.group_sep ∧ c ≠ o.decimal_sep) :
    sanitize_number o (intChars v) = intChars v :=
  sanitize_number_id (fun c hc =>
    ⟨intChars_ws_free v c hc, (hgd c hc).1, (hgd c hc).2⟩)

theorem parse_number_intChars {o : NumberRangeOptions} {v : Int} (d : Option Int)
    (hgd : ∀ c ∈ intChars v, c ≠ o.group_sep ∧ c ≠ o.decimal_sep) :
    parse_number o (intChars v) d = .ok v := by
  have hs := sanitize_intChars hgd
  simp only [parse_number, hs]
  rw [if_neg (fun hand => intChars_ne_nil v hand.2), parseIntLit_intChars]

theorem parseTerm_single {o : NumberRangeOptions} {v : Int}
    (hr : o.range_sep ∉ intChars v)
    (hgd : ∀ c ∈ intChars v, c ≠ o.group_sep ∧ c ≠ o.decimal_sep) :
    parseTerm o (intChars v) = .ok (.Single v) := by
  have h0 : (intChars v).count o.range_sep = 0 := count_sep_free hr
  simp only [parseTerm, h0]
  rw [parse_number_intChars none hgd]

theorem parseTerm_range2 {o : NumberRangeOptions} {s e : Int}
    (hs1 : o.range_sep ∉ intChars s)
    (hs2 : ∀ c ∈ intChars s, c ≠ o.group_sep ∧ c ≠ o.decimal_sep)
    (he1 : o.range_sep ∉ intChars e)
    (he2 : ∀ c ∈ intChars e, c ≠ o.group_sep ∧ c ≠ o.decimal_sep) :
    parseTerm o (intChars s ++ o.range_sep :: intChars e) = .ok (.Range s 1 e) := by
  have h1 : (intChars s ++ o.range_sep :: intChars e).count o.range_sep = 1 :=
    count_append_sep1 hs1 he1
  simp only [parseTerm, h1]
  rw [splitOnce_append _ _ hs1]
  dsimp only
  rw [parse_number_intChars o.default_start hs2]
  rw [parse_number_intChars o.default_end he2]

theorem parseTerm_range3 {o : NumberRangeOptions} {s i e : Int}
    (hs1 : o.range_sep ∉ intChars s)
    (hs2 : ∀ c ∈ intChars s, c ≠ o.group_sep ∧ c ≠ o.decimal_sep)
    (hi1 : o.range_sep ∉ intChars i)
    (hi2 : ∀ c ∈ intChars i, c ≠ o.group_sep ∧ c ≠ o.decimal_sep)
    (he1 : o.range_sep ∉ intChars e)
    (he2 : ∀ c ∈ intChars e, c ≠ o.group_sep ∧ c ≠ o.decimal_sep) :
    parseTerm o (intChars s ++ o.range_sep :: (intChars i ++ o.range_sep :: intChars e)) =
      .ok (.Range s i e) := by
  have h2 : (intChars s ++ o.range_sep :: (intChars i ++ o.range_sep :: intChars e)).count
      o.range_sep = 2 := count_append_sep2 hs1 hi1 he1
  simp only [parseTerm, h2]
  rw [splitN3_eq _ _ _ hs1 hi1]
  dsimp only
  rw [parse_number_intChars o.default_start hs2]
  rw [parse_number_intChars (some 1) hi2]
  rw [parse_number_intChars o.default_end he2]

theorem parseTerms_map_ok {o : NumberRangeOptions} {fmt : Number Int → List Char} :
    ∀ ts : List (Number Int), (∀ t ∈ ts, parseTerm o (fmt t) = .ok t) →
      parseTerms o (ts.map fmt) = .ok ts := by
  intro ts
  induction ts with
  | nil => intro _; rfl
  | cons t rest ih =>
    intro h
    simp only [List.map_cons, parseTerms]
    rw [h t (List.mem_cons_self t rest), ih (fun x hx => h x (List.mem_cons_of_mem t hx))]

theorem parseTerms_error_of_mem {o : NumberRangeOptions} :
    ∀ ts : List (List Char), (∃ t ∈ ts, ∃ er, parseTerm o t = .error er) →
      ∃ er, parseTerms o ts = .error er := by
  intro ts
  induction ts with
  | nil => intro ⟨t, ht, _⟩; exact absurd ht (List.not_mem_nil t)
  | cons t rest ih =>
    intro ⟨x, hx, er, hter⟩
    cases hpt : parseTerm o t with
    | error e1 => exact ⟨e1, by simp [parseTerms, hpt]⟩
    | ok n =>
      rcases List.mem_cons.mp hx with rfl | hx2
      · rw [hpt] at hter
        cases hter
      · obtain ⟨e2, he2⟩ := ih ⟨x, hx2, er, hter⟩
        exact ⟨e2, by simp [parseTerms, hpt, he2]⟩

theorem parseTerms_ok_all {o : NumberRangeOptions} :
    ∀ (ts : List (List Char)) (ns : List (Number Int)), parseTerms o ts = .ok ns →
      ∀ t ∈ ts, ∃ n, parseTerm o t = .ok n := by
  intro ts
  induction ts with
  | nil => intro ns _ t ht; exact absurd ht (List.not_mem_nil t)
  | cons x rest ih =>
    intro ns h t ht
    cases hpt : parseTerm o x with
    | error e1 => rw [parseTerms, hpt] at h; cases h
    | ok n =>
      rcases List.mem_cons.mp ht with rfl | ht2
      · exact ⟨n, hpt⟩
      · rw [parseTerms, hpt] at h
        cases hrest : parseTerms o rest with
        | error e2 => rw [hrest] at h; cases h
        | ok ms => exact ih ms hrest t ht2

theorem parse_str_eq (nr : NumberRange) (l : List Char) :
    NumberRange.parse_str nr l =
      if sanitize_number nr.options l = [] then
        .ok { nr with numbers := [], original_repr := some l }
      else
        match parseTerms nr.options (splitChar nr.options.list_sep l) with
        | .ok ns => .ok { nr with numbers := ns, original_repr := some l }
        | .error er => .error er := rfl

theorem parse_str_ok_fields {nr0 nr : NumberRange} {l : List Char}
    (h : NumberRange.parse_str nr0 l = .ok nr) :
    nr.options = nr0.options ∧ nr.original_repr = some l := by
  rw [parse_str_eq] at h
  by_cases hs : sanitize_number nr0.options l = []
  · rw [if_pos hs] at h
    injection h with h2
    rw [← h2]
    exact ⟨rfl, rfl⟩
  · rw [if_neg hs] at h
    cases hp : parseTerms nr0.options (splitChar nr0.options.list_sep l) with
    | ok ns =>
      rw [hp] at h
      injection h with h2
      rw [← h2]
      exact ⟨rfl, rfl⟩
    | error e1 =>
      rw [hp] at h
      cases h

theorem drainAux_none {st : List (Number Int)} (h : (nextL st).1 = none) :
    ∀ f, drainAux f st = [] := by
  intro f
  cases f with
  | zero => rfl
  | succ f =>
    simp only [drainAux]
    cases hn : nextL st with
    | mk o1 st2 =>
      rw [hn] at h
      cases o1 with
      | none => rfl
      | some v => cases h

theorem new_sep_friendly (v : Int) :
    ':' ∉ intChars v ∧ ',' ∉ intChars v
    ∧ ∀ c ∈ intChars v, c ≠ '_' ∧ c ≠ '.' := by
  refine ⟨intChars_not_mem (by decide) (by decide),
    intChars_not_mem (by decide) (by decide), ?_⟩
  intro c hc
  rcases intChars_chars v c hc with hd | hd
  · obtain ⟨-, hu, hdot, -, -, -, -⟩ := digit_not_special hd
    exact ⟨hu, hdot⟩
  · subst hd
    exact ⟨by decide, by decide⟩

theorem parse_str_numbers (nr : NumberRange) (l : List Char)
    (hne : sanitize_number nr.options l ≠ [])
    (ns : List (Number Int))
    (hterms : parseTerms nr.options (splitChar nr.options.list_sep l) = .ok ns) :
    NumberRange.parse_str nr l = .ok { nr with numbers := ns, original_repr := some l } := by
  rw [parse_str_eq, if_neg hne, hterms]

/-- C4: for every pair of integers with `s > e`, parsing the two-part term
rendered as `s:e` under the default configuration succeeds, producing
`Range(s, 1, e)` with the implied step `+1`, and draining that term yields
no values at all. -/
theorem c4_descending_unit_range (s e : Int) (h : e < s) :
    NumberRange.parse_str NumberRange.defaultNR (intChars s ++ ':' :: intChars e) =
      .ok { numbers := [Number.Range s 1 e],
            original_repr := some (intChars s ++ ':' :: intChars e),
            options := NumberRangeOptions.new }
    ∧ drainAll [Number.Range s 1 e] = [] := by
  obtain ⟨hsr, hsl, hsg⟩ := new_sep_friendly s
  obtain ⟨her, hel, heg⟩ := new_sep_friendly e
  have hchars : ∀ c ∈ intChars s ++ ':' :: intChars e,
      isWS c = false ∧ c ≠ '_' ∧ c ≠ '.' := by
    intro c hc
    rcases List.mem_append.mp hc with h1 | h1
    · exact ⟨intChars_ws_free s c h1, (hsg c h1).1, (hsg c h1).2⟩
    · rcases List.mem_cons.mp h1 with rfl | h2
      · exact ⟨by decide, by decide, by decide⟩
      · exact ⟨intChars_ws_free e c h2, (heg c h2).1, (heg c h2).2⟩
  have hsan : sanitize_number NumberRangeOptions.new (intChars s ++ ':' :: intChars e)
      = intChars s ++ ':' :: intChars e := sanitize_number_id hchars
  have hcomma : ',' ∉ intChars s ++ ':' :: intChars e := by
    intro hm
    rcases List.mem_append.mp hm with h1 | h1
    · exact hsl h1
    · rcases List.mem_cons.mp h1 with h2 | h2
      · exact absurd h2 (by decide)
      · exact hel h2
  constructor
  · have hne : sanitize_number NumberRange.defaultNR.options
        (intChars s ++ ':' :: intChars e) ≠ [] := by
      rw [show NumberRange.defaultNR.options = NumberRangeOptions.new from rfl, hsan]
      simp
    have hterms : parseTerms NumberRange.defaultNR.options
        (splitChar NumberRange.defaultNR.options.list_sep (intChars s ++ ':' :: intChars e))
        = .ok [Number.Range s 1 e] := by
      rw [show NumberRange.defaultNR.options = NumberRangeOptions.new from rfl]
      rw [show NumberRangeOptions.new.list_sep = ',' from rfl]
      rw [splitChar_not_mem _ hcomma]
      simp only [parseTerms]
      rw [show (':' : Char) = NumberRangeOptions.new.range_sep from rfl]
      rw [parseTerm_range2 hsr hsg her heg]
    exact parse_str_numbers NumberRange.defaultNR _ hne _ hterms
  · apply drainAux_none
    have hv : (Number.Range s 1 e).is_valid = false := by
      rw [is_valid_range, Bool.eq_false_iff]
      intro hvv
      rw [rangeValid_iff] at hvv
      omega
    simp [nextL, hv]

theorem c4_witness :
    NumberRange.parse_str NumberRange.defaultNR (intChars 4 ++ ':' :: intChars 1) =
      .ok { numbers := [Number.Range 4 1 1],
            original_repr := some (intChars 4 ++ ':' :: intChars 1),
            options := NumberRangeOptions.new }
    ∧ drainAll [Number.Range 4 1 1] = [] :=
  c4_descending_unit_range 4 1 (by decide)

/-- C3 counterexample: with the range separator set to `-`, the string
`1--4` has exactly two separator occurrences, so parsing succeeds with
`Range(1, 1, 4)` (the empty middle part takes the default step `1`); it is
not a parse error of any kind. -/
theorem c3_counterexample :
    NumberRange.parse_str
        (NumberRange.from_options (NumberRangeOptions.new.with_range_sep '-'))
        ['1', '-', '-', '4'] =
      .ok { numbers := [Number.Range 1 1 4],
            original_repr := some ['1', '-', '-', '4'],
            options := NumberRangeOptions.new.with_range_sep '-' }
    ∧ ∀ er : ParseErr,
        NumberRange.parse_str
          (NumberRange.from_options (NumberRangeOptions.new.with_range_sep '-'))
          ['1', '-', '-', '4'] ≠ .error er := by
  have h1 : NumberRange.parse_str
      (NumberRange.from_options (NumberRangeOptions.new.with_range_sep '-'))
      ['1', '-', '-', '4'] =
      .ok { numbers := [Number.Range 1 1 4],
            original_repr := some ['1', '-', '-', '4'],
            options := NumberRangeOptions.new.with_range_sep '-' } := by decide
  refine ⟨h1, ?_⟩
  intro er hc
  rw [h1] at hc
  cases hc

/-- C3 amended: parsing `1--4` with range separator `-` succeeds (two
separator occurrences; the empty middle part takes the implicit step `1`),
producing `Range(1, 1, 4)` which drains to `[1, 2, 3, 4]`; a term with
three or more separator occurrences, such as `1---4`, is rejected with the
too-many-range-separators error naming the separator and the term. -/
theorem c3_amended_empty_step :
    NumberRange.parse_str
        (NumberRange.from_options (NumberRangeOptions.new.with_range_sep '-'))
        ['1', '-', '-', '4'] =
      .ok { numbers := [Number.Range 1 1 4],
            original_repr := some ['1', '-', '-', '4'],
            options := NumberRangeOptions.new.with_range_sep '-' }
    ∧ drainAll [Number.Range 1 1 4] = [1, 2, 3, 4]
    ∧ NumberRange.parse_str
        (NumberRange.from_options (NumberRangeOptions.new.with_range_sep '-'))
        ['1', '-', '-', '-', '4'] =
        .error (.tooManySeps '-' ['1', '-', '-', '-', '4']) := by
  exact ⟨by decide, by decide, by decide⟩

theorem parse_number_notANumber {o : NumberRangeOptions} {a num : List Char}
    {d : Option Int} (h : parse_number o a d = .error (.notANumber num)) :
    num = a ∧ parseIntLit (sanitize_number o num) = none := by
  simp only [parse_number] at h
  by_cases hd : d.isSome ∧ sanitize_number o a = []
  · rw [if_pos hd] at h
    cases h
  · rw [if_neg hd] at h
    cases hp : parseIntLit (sanitize_number o a) with
    | some v => rw [hp] at h; cases h
    | none =>
      rw [hp] at h
      injection h with h2
      injection h2 with h3
      exact ⟨h3.symm, h3 ▸ hp⟩

theorem parseTerm_notANumber {o : NumberRangeOptions} {t num : List Char}
    (h : parseTerm o t = .error (.notANumber num)) :
    parseIntLit (sanitize_number o num) = none := by
  simp only [parseTerm] at h
  split at h
  · split at h
    · cases h
    · rename_i er heq
      injection h with h2
      rw [h2] at heq
      exact (parse_number_notANumber heq).2
  · split at h
    · rename_i a b heq
      split at h
      · rename_i er heq2
        injection h with h2
        rw [h2] at heq2
        exact (parse_number_notANumber heq2).2
      · split at h
        · rename_i er heq3
          injection h with h2
          rw [h2] at heq3
          exact (parse_number_notANumber heq3).2
        · cases h
    · injection h with h2
      cases h2
  · split at h
    · rename_i a b c heq
      split at h
      · rename_i er heq2
        injection h with h2
        rw [h2] at heq2
        exact (parse_number_notANumber heq2).2
      · split at h
        · rename_i er heq3
          injection h with h2
          rw [h2] at heq3
          exact (parse_number_notANumber heq3).2
        · split at h
          · rename_i er heq4
            injection h with h2
            rw [h2] at heq4
            exact (parse_number_notANumber heq4).2
          · cases h
    · injection h with h2
      cases h2
  · injection h with h2
    cases h2

theorem parseTerms_error_mem {o : NumberRangeOptions} :
    ∀ (ts : List (List Char)) (er : ParseErr), parseTerms o ts = .error er →
      ∃ t ∈ ts, parseTerm o t = .error er := by
  intro ts
  induction ts with
  | nil => intro er h; cases h
  | cons t rest ih =>
    intro er h
    cases hpt : parseTerm o t with
    | error e1 =>
      rw [parseTerms, hpt] at h
      injection h with h2
      exact ⟨t, List.mem_cons_self t rest, by rw [hpt, h2]⟩
    | ok n =>
      rw [parseTerms, hpt] at h
      cases hrest : parseTerms o rest with
      | error e2 =>
        rw [hrest] at h
        injection h with h2
        obtain ⟨x, hx, hxe⟩ := ih e2 hrest
        exact ⟨x, List.mem_cons_of_mem t hx, by rw [hxe, h2]⟩
      | ok ms => rw [hrest] at h; cases h

/-- C6 counterexample: in the input `1:::1,a` under the default
configuration, the number substring `a` is not a valid literal, yet the
parse error is the too-many-range-separators error for the earlier term
`1:::1` — it does not name `a`, and indeed names no substring at all (it
is not a malformed-number error), refuting the claim that the error always
names the original unsanitized failing substring. -/
theorem c6_counterexample :
    parseIntLit (sanitize_number NumberRangeOptions.new ['a']) = none
    ∧ ['a'] ∈ splitChar ',' ['1', ':', ':', ':', '1', ',', 'a']
    ∧ NumberRange.parse_str NumberRange.defaultNR ['1', ':', ':', ':', '1', ',', 'a'] =
        .error (.tooManySeps ':' ['1', ':', ':', ':', '1'])
    ∧ ∀ num : List Char,
        ParseErr.tooManySeps ':' ['1', ':', ':', ':', '1'] ≠ ParseErr.notANumber num := by
  refine ⟨by decide, by decide, by decide, ?_⟩
  intro num h
  cases h

/-- C6 amended: a number substring whose sanitized form fails integer
parsing (and is not rescued by a configured default) makes `parse_number`
return the malformed-number error naming the original unsanitized
substring; when the sanitized whole input is non-empty, the whole parse
returns exactly the error of the first failing term in term order, every
error returned originates in some failing term substring, and every
malformed-number error returned names a substring whose sanitized form
fails to parse; a successful parse implies every term substring parsed —
all-or-nothing, no partial result. The error does not name the failing
number substring when an earlier term fails differently (see the
counterexample). -/
theorem c6_first_error_naming :
    (∀ (o : NumberRangeOptions) (num : List Char) (d : Option Int),
        ¬(d.isSome ∧ sanitize_number o num = []) →
        parseIntLit (sanitize_number o num) = none →
        parse_number o num d = .error (.notANumber num))
    ∧ (∀ (nr : NumberRange) (l : List Char) (er : ParseErr),
        sanitize_number nr.options l ≠ [] →
        parseTerms nr.options (splitChar nr.options.list_sep l) = .error er →
        NumberRange.parse_str nr l = .error er)
    ∧ (∀ (nr : NumberRange) (l : List Char) (er : ParseErr),
        NumberRange.parse_str nr l = .error er →
        ∃ t ∈ splitChar nr.options.list_sep l, parseTerm nr.options t = .error er)
    ∧ (∀ (o : NumberRangeOptions) (t num : List Char),
        parseTerm o t = .error (.notANumber num) →
        parseIntLit (sanitize_number o num) = none)
    ∧ (∀ (nr r : NumberRange) (l : List Char),
        NumberRange.parse_str nr l = .ok r →
        sanitize_number nr.options l = [] ∨
          ∀ t ∈ splitChar nr.options.list_sep l, ∃ n, parseTerm nr.options t = .ok n) := by
  refine ⟨?_, ?_, ?_, ?_, ?_⟩
  · intro o num d h1 h2
    simp only [parse_number]
    rw [if_neg h1, h2]
  · intro nr l er hne her
    rw [parse_str_eq, if_neg hne, her]
  · intro nr l er h
    rw [parse_str_eq] at h
    by_cases hs : sanitize_number nr.options l = []
    · rw [if_pos hs] at h
      cases h
    · rw [if_neg hs] at h
      cases hp : parseTerms nr.options (splitChar nr.options.list_sep l) with
      | ok ns => rw [hp] at h; cases h
      | error e1 =>
        rw [hp] at h
        injection h with h2
        exact h2 ▸ parseTerms_error_mem _ e1 hp
  · intro o t num h
    exact parseTerm_notANumber h
  · intro nr r l h
    by_cases hs : sanitize_number nr.options l = []
    · exact Or.inl hs
    · right
      rw [parse_str_eq, if_neg hs] at h
      cases hp : parseTerms nr.options (splitChar nr.options.list_sep l) with
      | error e1 => rw [hp] at h; cases h
      | ok ns => exact parseTerms_ok_all _ ns hp

theorem c6_witness :
    parse_number NumberRangeOptions.new ['a'] none = .error (.notANumber ['a'])
    ∧ NumberRange.parse_str NumberRange.defaultNR ['1', ',', 'a'] =
        .error (.notANumber ['a']) :=
  ⟨c6_first_error_naming.1 NumberRangeOptions.new ['a'] none (by decide) (by decide),
   c6_first_error_naming.2.1 NumberRange.defaultNR ['1', ',', 'a']
     (ParseErr.notANumber ['a']) (by decide) (by decide)⟩

/-- C9: `original()` returns the last string given to `parse_str` (the
empty string for a never-parsed `NumberRange`), and neither `next()` (any
number of times) nor replacing the term sequence changes `original()` or
the options — iteration mutates only the `numbers` field. -/
theorem c9_original_frame :
    (∀ nr : NumberRange,
        (NumberRange.next nr).2.original = nr.original
        ∧ (NumberRange.next nr).2.options = nr.options
        ∧ (NumberRange.next nr).2.original_repr = nr.original_repr)
    ∧ (∀ (n : Nat) (nr : NumberRange),
        (NumberRange.nextN n nr).original = nr.original
        ∧ (NumberRange.nextN n nr).options = nr.options)
    ∧ (∀ (nr r : NumberRange) (l : List Char),
        NumberRange.parse_str nr l = .ok r → r.original = l)
    ∧ NumberRange.defaultNR.original = []
    ∧ (∀ (nr : NumberRange) (ns : List (Number Int)),
        NumberRange.original { nr with numbers := ns } = nr.original) := by
  have hstep : ∀ nr : NumberRange,
      (NumberRange.next nr).2.original = nr.original
      ∧ (NumberRange.next nr).2.options = nr.options
      ∧ (NumberRange.next nr).2.original_repr = nr.original_repr :=
    fun nr => ⟨rfl, rfl, rfl⟩
  refine ⟨hstep, ?_, ?_, rfl, fun nr ns => rfl⟩
  · intro n
    induction n with
    | zero => intro nr; exact ⟨rfl, rfl⟩
    | succ n ih =>
      intro nr
      constructor
      · rw [show NumberRange.nextN (n + 1) nr
            = NumberRange.nextN n (NumberRange.next nr).2 from rfl,
          (ih _).1, (hstep nr).1]
      · rw [show NumberRange.nextN (n + 1) nr
            = NumberRange.nextN n (NumberRange.next nr).2 from rfl,
          (ih _).2, (hstep nr).2.1]
  · intro nr r l h
    have h2 := (parse_str_ok_fields h).2
    rw [NumberRange.original, h2]
    rfl

theorem c9_witness :
    NumberRange.original
      { numbers := [Number.Single 5], original_repr := some ['5'],
        options := NumberRangeOptions.new } = ['5'] :=
  c9_original_frame.2.2.1 NumberRange.defaultNR
    { numbers := [Number.Single 5], original_repr := some ['5'],
      options := NumberRangeOptions.new } ['5'] (by decide)

/-- C10 amended: an empty term substring always fails on its own with the
malformed-number error naming the empty substring (a `Single` term's
number is parsed with no default substitution, so configured defaults
never rescue an empty list item); whenever the sanitized whole input is
non-empty, an input containing an empty term substring therefore fails to
parse (with the first failing term's error); in particular, under the
default separators with both defaults set, `,4`, `1,,4` and `1,4,` all
return the malformed-number error on the empty substring. -/
theorem c10_empty_item :
    (∀ o : NumberRangeOptions, parseTerm o [] = .error (.notANumber []))
    ∧ (∀ (nr : NumberRange) (l : List Char),
        sanitize_number nr.options l ≠ [] →
        [] ∈ splitChar nr.options.list_sep l →
        ∃ er, NumberRange.parse_str nr l = .error er)
    ∧ NumberRange.parse_str (NumberRange.from_options optsWithDefaults) [',', '4'] =
        .error (.notANumber [])
    ∧ NumberRange.parse_str (NumberRange.from_options optsWithDefaults)
        ['1', ',', ',', '4'] = .error (.notANumber [])
    ∧ NumberRange.parse_str (NumberRange.from_options optsWithDefaults)
        ['1', ',', '4', ','] = .error (.notANumber []) := by
  have hterm : ∀ o : NumberRangeOptions, parseTerm o [] = .error (.notANumber []) := by
    intro o
    have hsan : sanitize_number o [] = [] :=
      sanitize_number_id (fun c hc => absurd hc (List.not_mem_nil c))
    simp only [parseTerm, List.count_nil]
    simp only [parse_number, hsan]
    rw [if_neg (by simp)]
    rfl
  refine ⟨hterm, ?_, by decide, by decide, by decide⟩
  intro nr l hne hmem
  obtain ⟨er, her⟩ := parseTerms_error_of_mem _
    ⟨[], hmem, ParseErr.notANumber [], hterm nr.options⟩
  exact ⟨er, by rw [parse_str_eq, if_neg hne, her]⟩

theorem c10_witness :
    parseTerm NumberRangeOptions.new [] = .error (.notANumber [])
    ∧ (∃ er, NumberRange.parse_str (NumberRange.from_options optsWithDefaults)
        [',', '4'] = .error er) :=
  ⟨c10_empty_item.1 NumberRangeOptions.new,
   c10_empty_item.2.1 (NumberRange.from_options optsWithDefaults) [',', '4']
     (by decide) (by decide)⟩

/-- C10 counterexample: under a configuration whose group separator equals
the list separator (with both default bounds set), the non-empty input `,`
contains an empty term substring with zero range-separator occurrences,
yet parsing succeeds with zero terms instead of returning a
malformed-number error (the whole input sanitizes to the empty string);
moreover even under the default separators with defaults set, an input
with an empty term can fail with the too-many-range-separators error
rather than a malformed-number error. -/
theorem c10_counterexample :
    ([] ∈ splitChar c10Opts.list_sep [','])
    ∧ NumberRange.parse_str (NumberRange.from_options c10Opts) [','] =
        .ok { numbers := [], original_repr := some [','], options := c10Opts }
    ∧ NumberRange.parse_str (NumberRange.from_options optsWithDefaults)
        ['1', ':', ':', ':', '1', ','] =
        .error (.tooManySeps ':' ['1', ':', ':', ':', '1']) := by
  exact ⟨by decide, by decide, by decide⟩

theorem fmtTerm_ne_nil (o : NumberRangeOptions) (t : Number Int) : fmtTerm o t ≠ [] := by
  cases t with
  | Single v => exact intChars_ne_nil v
  | Range s i e =>
    by_cases hi : i = 1
    · simp only [fmtTerm, if_pos hi]
      intro h
      rcases List.append_eq_nil.mp h with ⟨-, h2⟩
      exact List.cons_ne_nil _ _ h2
    · simp only [fmtTerm, if_neg hi]
      intro h
      rcases List.append_eq_nil.mp h with ⟨-, h2⟩
      exact List.cons_ne_nil _ _ h2

theorem fmtTerm_chars (o : NumberRangeOptions) (t : Number Int) :
    ∀ c ∈ fmtTerm o t, isDigitC c = true ∨ c = '-' ∨ c = o.range_sep := by
  cases t with
  | Single v =>
    intro c hc
    rcases intChars_chars v c hc with h | h
    · exact Or.inl h
    · exact Or.inr (Or.inl h)
  | Range s i e =>
    by_cases hi : i = 1
    · simp only [fmtTerm, if_pos hi]
      intro c hc
      rcases List.mem_append.mp hc with h1 | h1
      · rcases intChars_chars s c h1 with h | h
        · exact Or.inl h
        · exact Or.inr (Or.inl h)
      · rcases List.mem_cons.mp h1 with rfl | h2
        · exact Or.inr (Or.inr rfl)
        · rcases intChars_chars e c h2 with h | h
          · exact Or.inl h
          · exact Or.inr (Or.inl h)
    · simp only [fmtTerm, if_neg hi]
      intro c hc
      rcases List.mem_append.mp hc with h1 | h1
      · rcases intChars_chars s c h1 with h | h
        · exact Or.inl h
        · exact Or.inr (Or.inl h)
      · rcases List.mem_cons.mp h1 with rfl | h2
        · exact Or.inr (Or.inr rfl)
        · rcases List.mem_append.mp h2 with h3 | h3
          · rcases intChars_chars i c h3 with h | h
            · exact Or.inl h
            · exact Or.inr (Or.inl h)
          · rcases List.mem_cons.mp h3 with rfl | h4
            · exact Or.inr (Or.inr rfl)
            · rcases intChars_chars e c h4 with h | h
              · exact Or.inl h
              · exact Or.inr (Or.inl h)

theorem mem_joinSep {sep : Char} :
    ∀ (pieces : List (List Char)) (c : Char),
      c ∈ joinSep sep pieces → c = sep ∨ ∃ p ∈ pieces, c ∈ p := by
  intro pieces
  induction pieces with
  | nil => intro c hc; exact absurd hc (List.not_mem_nil c)
  | cons x rest ih =>
    intro c hc
    cases rest with
    | nil => exact Or.inr ⟨x, List.mem_cons_self x [], hc⟩
    | cons y r =>
      rw [joinSep_cons2] at hc
      rcases List.mem_append.mp hc with h1 | h1
      · exact Or.inr ⟨x, List.mem_cons_self _ _, h1⟩
      · rcases List.mem_cons.mp h1 with rfl | h2
        · exact Or.inl rfl
        · rcases ih c h2 with h3 | ⟨p, hp, hcp⟩
          · exact Or.inl h3
          · exact Or.inr ⟨p, List.mem_cons_of_mem x hp, hcp⟩

theorem joinSep_ne_nil {sep : Char} {p : List Char} {rest : List (List Char)}
    (hp : p ≠ []) : joinSep sep (p :: rest) ≠ [] := by
  cases rest with
  | nil => exact hp
  | cons y r =>
    rw [joinSep_cons2]
    intro h
    rcases List.append_eq_nil.mp h with ⟨-, h2⟩
    exact List.cons_ne_nil _ _ h2

theorem parseTerm_fmt_new (t : Number Int) :
    parseTerm NumberRangeOptions.new (fmtTerm NumberRangeOptions.new t) = .ok t := by
  cases t with
  | Single v =>
    obtain ⟨hr, -, hg⟩ := new_sep_friendly v
    exact parseTerm_single hr hg
  | Range s i e =>
    obtain ⟨hsr, -, hsg⟩ := new_sep_friendly s
    obtain ⟨her, -, heg⟩ := new_sep_friendly e
    by_cases hi : i = 1
    · subst hi
      simp only [fmtTerm, if_pos rfl]
      exact parseTerm_range2 hsr hsg her heg
    · obtain ⟨hir, -, hig⟩ := new_sep_friendly i
      simp only [fmtTerm, if_neg hi]
      exact parseTerm_range3 hsr hsg hir hig her heg

theorem parse_fmt_new (ns : List (Number Int)) :
    NumberRange.parse_str NumberRange.defaultNR
        (joinSep ',' (ns.map (fmtTerm NumberRangeOptions.new))) =
      .ok { numbers := ns,
            original_repr := some (joinSep ',' (ns.map (fmtTerm NumberRangeOptions.new))),
            options := NumberRangeOptions.new } := by
  cases ns with
  | nil => rfl
  | cons t ts =>
    have hLchars : ∀ c ∈ joinSep ',' ((t :: ts).map (fmtTerm NumberRangeOptions.new)),
        isDigitC c = true ∨ c = '-' ∨ c = ':' ∨ c = ',' := by
      intro c hc
      rcases mem_joinSep _ c hc with rfl | ⟨p, hp, hcp⟩
      · exact Or.inr (Or.inr (Or.inr rfl))
      · obtain ⟨t0, ht0, rfl⟩ := List.mem_map.mp hp
        rcases fmtTerm_chars _ t0 c hcp with h | h | h
        · exact Or.inl h
        · exact Or.inr (Or.inl h)
        · exact Or.inr (Or.inr (Or.inl h))
    have hplain : ∀ c ∈ joinSep ',' ((t :: ts).map (fmtTerm NumberRangeOptions.new)),
        isWS c = false ∧ c ≠ '_' ∧ c ≠ '.' := by
      intro c hc
      rcases hLchars c hc with h | h | h | h
      · exact ⟨(digit_not_special h).1, (digit_not_special h).2.1,
          (digit_not_special h).2.2.1⟩
      · subst h; exact ⟨by decide, by decide, by decide⟩
      · subst h; exact ⟨by decide, by decide, by decide⟩
      · subst h; exact ⟨by decide, by decide, by decide⟩
    have hsan : sanitize_number NumberRangeOptions.new
        (joinSep ',' ((t :: ts).map (fmtTerm NumberRangeOptions.new)))
        = joinSep ',' ((t :: ts).map (fmtTerm NumberRangeOptions.new)) :=
      sanitize_number_id hplain
    have hLne : joinSep ',' ((t :: ts).map (fmtTerm NumberRangeOptions.new)) ≠ [] := by
      rw [List.map_cons]
      exact joinSep_ne_nil (fmtTerm_ne_nil _ t)
    have hsplit : splitChar ',' (joinSep ',' ((t :: ts).map (fmtTerm NumberRangeOptions.new)))
        = (t :: ts).map (fmtTerm NumberRangeOptions.new) := by
      refine splitChar_joinSep _ (by simp) ?_
      intro p hp
      obtain ⟨t0, ht0, rfl⟩ := List.mem_map.mp hp
      intro hcm
      rcases fmtTerm_chars _ t0 ',' hcm with h | h | h
      · exact absurd h (by decide)
      · exact absurd h (by decide)
      · exact absurd h (by decide)
    have hterms : parseTerms NumberRangeOptions.new
        ((t :: ts).map (fmtTerm NumberRangeOptions.new)) = .ok (t :: ts) :=
      parseTerms_map_ok _ (fun x _ => parseTerm_fmt_new x)
    have hne2 : sanitize_number NumberRange.defaultNR.options
        (joinSep ',' ((t :: ts).map (fmtTerm NumberRangeOptions.new))) ≠ [] := by
      rw [show NumberRange.defaultNR.options = NumberRangeOptions.new from rfl, hsan]
      exact hLne
    have ht2 : parseTerms NumberRange.defaultNR.options
        (splitChar NumberRange.defaultNR.options.list_sep
          (joinSep ',' ((t :: ts).map (fmtTerm NumberRangeOptions.new)))) = .ok (t :: ts) := by
      rw [show NumberRange.defaultNR.options = NumberRangeOptions.new from rfl,
        show NumberRangeOptions.new.list_sep = ',' from rfl, hsplit]
      exact hterms
    exact parse_str_numbers _ _ hne2 _ ht2

/-- C7: for every string that parses successfully under the default
configuration, formatting the freshly parsed `NumberRange` (single values
printed plainly, unit-step ranges as `start:end`, other ranges as
`start:step:end`, terms joined by the list separator) yields a string that
reparses under the same configuration to the very same term sequence, and
hence drains to the same element sequence. -/
theorem c7_roundtrip (l : List Char) (nr : NumberRange)
    (h : NumberRange.parse_str NumberRange.defaultNR l = .ok nr) :
    ∃ nr2, NumberRange.parse_str NumberRange.defaultNR (NumberRange.fmt nr) = .ok nr2
      ∧ nr2.numbers = nr.numbers
      ∧ drainAll nr2.numbers = drainAll nr.numbers := by
  obtain ⟨hopt, horig⟩ := parse_str_ok_fields h
  have hfmt : NumberRange.fmt nr
      = joinSep ',' (nr.numbers.map (fmtTerm NumberRangeOptions.new)) := by
    rw [NumberRange.fmt, hopt]
    rfl
  rw [hfmt]
  exact ⟨_, parse_fmt_new nr.numbers, rfl, rfl⟩

theorem c7_witness :
    ∃ nr2, NumberRange.parse_str NumberRange.defaultNR
        (NumberRange.fmt
          { numbers := [Number.Range 1 1 3],
            original_repr := some ['1', ':', '3'],
            options := NumberRangeOptions.new }) = .ok nr2
      ∧ nr2.numbers = [Number.Range 1 1 3]
      ∧ drainAll nr2.numbers = drainAll [Number.Range 1 1 3] :=
  c7_roundtrip ['1', ':', '3']
    { numbers := [Number.Range 1 1 3], original_repr := some ['1', ':', '3'],
      options := NumberRangeOptions.new } (by decide)
